import Mathlib

/-!
Shallow embedding of the batch-rename engine of `python_pdf_batch_renamer`
(src/file_manager.py, src/excel_parser.py, src/gui_drag_and_drop.py,
src/gui_batch_renamer.py), together with theorems settling the frozen
claims about it.

Python strings are modelled as `List Char` (ASCII scope: the repository's
file names, column names and separator literals are ASCII; Python's
Unicode-aware `\w` and `str.lower` agree with the ASCII versions there).
-/

namespace BatchRenamer

/-- Python strings, modelled as lists of characters. -/
abbrev Str := List Char

/-- `str.lower()` (ASCII case folding, as used on file extensions). -/
def strLower (s : Str) : Str := s.map Char.toLower

/-- Python `str.isspace` characters relevant to `str.strip()` (ASCII scope:
space, tab, newline, carriage return, vertical tab, form feed). -/
def pyIsSpace (c : Char) : Bool :=
  c = ' ' || c = '\t' || c = '\n' || c = '\r' || c = '\x0b' || c = '\x0c'

/-- Python `str.strip()`: drop whitespace from both ends. -/
def pyStrip (s : Str) : Str :=
  ((s.dropWhile pyIsSpace).reverse.dropWhile pyIsSpace).reverse

/-- Scanner for Python `str.replace(old, new)` with a nonempty pattern:
scan left to right, replacing non-overlapping occurrences.  The fuel
argument (any bound on the string length) makes the recursion structural
so that the definition evaluates inside the kernel. -/
def replaceGo (p r : Str) : Nat → Str → Str
  | 0, s => s
  | _ + 1, [] => []
  | fuel + 1, c :: rest =>
    if p.isPrefixOf (c :: rest) ∧ 0 < p.length then
      r ++ replaceGo p r fuel (rest.drop (p.length - 1))
    else
      c :: replaceGo p r fuel rest

/-- Python `str.replace(old, new)` for a nonempty pattern. -/
def replaceNE (p r s : Str) : Str := replaceGo p r s.length s

/-- The fuel argument of `replaceGo` is irrelevant as long as it bounds
the string length. -/
theorem replaceGo_fuel (p r : Str) :
    ∀ fuel fuel' s, s.length ≤ fuel → s.length ≤ fuel' →
      replaceGo p r fuel s = replaceGo p r fuel' s := by
  intro fuel
  induction fuel with
  | zero =>
    intro fuel' s hs _
    have : s = [] := List.eq_nil_of_length_eq_zero (Nat.le_zero.mp hs)
    subst this
    cases fuel' <;> simp [replaceGo]
  | succ n ih =>
    intro fuel' s hs hs'
    cases s with
    | nil => cases fuel' <;> simp [replaceGo]
    | cons c rest =>
      cases fuel' with
      | zero => simp at hs'
      | succ m =>
        simp only [replaceGo]
        by_cases hpre : p.isPrefixOf (c :: rest) ∧ 0 < p.length
        · have hlen : (rest.drop (p.length - 1)).length ≤ n := by
            simp only [List.length_drop]
            simp only [List.length_cons] at hs
            omega
          have hlen' : (rest.drop (p.length - 1)).length ≤ m := by
            simp only [List.length_drop]
            simp only [List.length_cons] at hs'
            omega
          rw [if_pos hpre, if_pos hpre, ih m _ hlen hlen']
        · have hlen : rest.length ≤ n := by
            simp only [List.length_cons] at hs
            omega
          have hlen' : rest.length ≤ m := by
            simp only [List.length_cons] at hs'
            omega
          rw [if_neg hpre, if_neg hpre, ih m _ hlen hlen']

/-- Python `str.replace(old, new)`.  For an empty pattern Python inserts
`new` before every character and at the end (`"ab".replace("", "-") =
"-a-b-"`). -/
def replaceL (p r s : Str) : Str :=
  if p = [] then r ++ s.flatMap (fun c => c :: r) else replaceNE p r s

/-- `replaceNE` leaves the empty string alone. -/
theorem replaceNE_nil (p r : Str) : replaceNE p r [] = [] := by
  simp [replaceNE, replaceGo]

/-- Step lemma: no match at the head. -/
theorem replaceNE_cons_nomatch (p r : Str) (c : Char) (rest : Str)
    (h : ¬ (p.isPrefixOf (c :: rest) ∧ 0 < p.length)) :
    replaceNE p r (c :: rest) = c :: replaceNE p r rest := by
  simp only [replaceNE, List.length_cons, replaceGo]
  rw [if_neg h]

/-- Step lemma: a match at the head is replaced. -/
theorem replaceNE_cons_match (p r : Str) (c : Char) (rest : Str)
    (h : p.isPrefixOf (c :: rest)) (hp : p ≠ []) :
    replaceNE p r (c :: rest) = r ++ replaceNE p r (rest.drop (p.length - 1)) := by
  have hp0 : 0 < p.length := List.length_pos.mpr hp
  simp only [replaceNE, List.length_cons, replaceGo]
  rw [if_pos ⟨h, hp0⟩]
  congr 1
  exact replaceGo_fuel p r rest.length _ _
    (by simp only [List.length_drop]; omega) le_rfl

/-- A segment of text that contains no character of the (nonempty) pattern
is copied verbatim by `replaceNE`: no occurrence of the pattern can touch
it. -/
theorem replaceNE_append_clean (p r x t : Str) (hp : p ≠ [])
    (hx : ∀ ch ∈ x, ch ∉ p) :
    replaceNE p r (x ++ t) = x ++ replaceNE p r t := by
  induction x with
  | nil => simp
  | cons c x ih =>
    have hc : c ∉ p := hx c (by simp)
    have hnotpre : ¬ p.isPrefixOf (c :: (x ++ t)) := by
      intro hpre
      rcases p with _ | ⟨q, p'⟩
      · exact hp rfl
      · have : q = c := by
          have := (List.isPrefixOf_iff_prefix).mp hpre
          rcases this with ⟨tl, htl⟩
          injection htl with h1 _
        exact hc (by simp [this])
    rw [List.cons_append,
      replaceNE_cons_nomatch p r c (x ++ t) (by simp [hnotpre]),
      ih (fun ch hch => hx ch (by simp [hch]))]
    simp

/-- `replaceNE` replaces an occurrence of the pattern sitting at the front
of the string. -/
theorem replaceNE_append_self (p r t : Str) (hp : p ≠ []) :
    replaceNE p r (p ++ t) = r ++ replaceNE p r t := by
  rcases p with _ | ⟨c, p'⟩
  · exact absurd rfl hp
  · have hpre : (c :: p').isPrefixOf (c :: (p' ++ t)) := by
      apply (List.isPrefixOf_iff_prefix).mpr
      exact ⟨t, by simp⟩
    rw [List.cons_append, replaceNE_cons_match (c :: p') r c (p' ++ t) hpre hp]
    simp [List.drop_left]

/-- A string with no character of the nonempty pattern is unchanged. -/
theorem replaceNE_clean (p r s : Str) (hp : p ≠ [])
    (hs : ∀ ch ∈ s, ch ∉ p) : replaceNE p r s = s := by
  have := replaceNE_append_clean p r s [] hp hs
  simpa [replaceNE_nil] using this

/-- A nonempty pattern does not occur in a string containing none of its
characters. -/
theorem not_infix_of_clean (p s : Str) (hp : p ≠ [])
    (hs : ∀ ch ∈ s, ch ∉ p) : ¬ (p <:+: s) := by
  intro hinf
  rcases p with _ | ⟨c, p'⟩
  · exact hp rfl
  · rcases hinf with ⟨a, b, hab⟩
    have hc : c ∈ s := by
      rw [← hab]
      simp
    exact hs c hc (by simp)

/-- Python `str.rfind(c)`: index of the last occurrence of `c`, `-1` if
absent. -/
def pyRfind (c : Char) : Str → Int
  | [] => -1
  | a :: rest =>
    let r := pyRfind c rest
    if r ≥ 0 then r + 1 else if a = c then 0 else -1

/-- `os.path.splitext` (posix): split off the extension at the last dot of
the final path component, unless every character of that component before
the dot is itself a dot (CPython scans for the first non-dot character and
splits at the last dot exactly when one exists in that range). -/
def splitext (p : Str) : Str × Str :=
  let si := pyRfind '/' p
  let di := pyRfind '.' p
  if di > si then
    let start := (si + 1).toNat
    if ((p.drop start).take (di.toNat - start)).any (fun ch => ch ≠ '.') then
      (p.take di.toNat, p.drop di.toNat)
    else (p, [])
  else (p, [])

/-- The final component of a path (`pathlib.PurePath.name` for the
well-formed absolute file paths the program handles). -/
def pathName (p : Str) : Str := p.drop (pyRfind '/' p + 1).toNat

/-- `pathlib.PurePath.suffix`: the extension of the final component,
empty when the last dot is leading or trailing. -/
def pySuffix (p : Str) : Str :=
  let n := pathName p
  let di := pyRfind '.' n
  if 0 < di ∧ di < (n.length : Int) - 1 then n.drop di.toNat else []

/-- `pathlib.PurePath.parent` rendered as a string. -/
def pyParent (p : Str) : Str :=
  let si := pyRfind '/' p
  if si > 0 then p.take si.toNat
  else if si = 0 then ['/']
  else ['.']

/-- `str(parent / name)` for a relative `name`. -/
def pyJoin (d n : Str) : Str :=
  if d = ['.'] then n
  else if d.getLast? = some '/' then d ++ n
  else d ++ '/' :: n

/-- `gui_drag_and_drop.DragAndDropFixedInputs.__init__`: the extension is
used as given when it starts with a dot, otherwise a dot is prepended. -/
def normExt (e : Str) : Str :=
  match e with
  | '.' :: _ => e
  | _ => '.' :: e

/-- The loop body of `DragAndDropFixedInputs.build_filename`: concatenate,
in current label order, each label's text followed by the entry text at
the same position (labels beyond the entry list get no trailing text). -/
def interleave : List Str → List Str → Str
  | [], _ => []
  | l :: ls, [] => l ++ interleave ls []
  | l :: ls, e :: es => l ++ e ++ interleave ls es

/-- `DragAndDropFixedInputs.build_filename`: the interleaved labels and
entries followed by the (normalised) extension. -/
def build_filename (labels entries : List Str) (ext : Str) : Str :=
  interleave labels entries ++ normExt ext

/-- `ALLOWED_CHARS` of gui_drag_and_drop.py. -/
def ALLOWED_CHARS : Str := ("-_,; ").toList

/-- `DragAndDropFixedInputs.validate_input`: empty text is accepted,
otherwise every character must belong to `ALLOWED_CHARS`. -/
def validate_input (new_value : Str) : Bool :=
  if new_value = [] then true
  else new_value.all (fun ch => ALLOWED_CHARS.contains ch)

/-! ### Segment view of a template

A built template body is an interleaving of field labels and literal
separator text.  The lemmas below track, through the generator's repeated
find/replace passes, which parts of the string are intact field labels and
which are inert literal text. -/

/-- One segment of a template body: literal text or an intact field label. -/
inductive Seg where
  | lit : Str → Seg
  | fld : Str → Seg
deriving DecidableEq

/-- The text of a segment. -/
def segText : Seg → Str
  | .lit x => x
  | .fld f => f

/-- Concatenate the segments back into a string. -/
def assemble (segs : List Seg) : Str := segs.flatMap segText

/-- Substituting one field: its labels become literal replacement text. -/
def substSeg (c v : Str) : Seg → Seg
  | .fld f => if f = c then .lit v else .fld f
  | .lit x => .lit x

/-- One `replace` pass over an interleaving: if no literal chunk and no
other label shares a character with the (nonempty) pattern `c`, the pass
replaces exactly the intact labels equal to `c`. -/
theorem replaceNE_assemble (c v : Str) (hc : c ≠ []) :
    ∀ segs : List Seg,
      (∀ x, Seg.lit x ∈ segs → ∀ ch ∈ x, ch ∉ c) →
      (∀ f, Seg.fld f ∈ segs → f ≠ c → ∀ ch ∈ f, ch ∉ c) →
      replaceNE c v (assemble segs) = assemble (segs.map (substSeg c v)) := by
  intro segs
  induction segs with
  | nil =>
    intro _ _
    simp [assemble, replaceNE_nil]
  | cons seg rest ih =>
    intro hlit hfld
    have hrest := ih (fun x hx => hlit x (by simp [hx]))
      (fun f hf => hfld f (by simp [hf]))
    cases seg with
    | lit x =>
      have hx : ∀ ch ∈ x, ch ∉ c := hlit x (by simp)
      simp only [assemble, List.flatMap_cons, List.map_cons, substSeg, segText]
      rw [replaceNE_append_clean c v x _ hc hx]
      rw [show (rest.flatMap segText) = assemble rest from rfl, hrest]
      rfl
    | fld f =>
      by_cases hfc : f = c
      · simp only [assemble, List.flatMap_cons, List.map_cons, substSeg, if_pos hfc, segText]
        rw [hfc, replaceNE_append_self c v _ hc]
        rw [show (rest.flatMap segText) = assemble rest from rfl, hrest]
        rfl
      · have hx : ∀ ch ∈ f, ch ∉ c := hfld f (by simp) hfc
        simp only [assemble, List.flatMap_cons, List.map_cons, substSeg, if_neg hfc, segText]
        rw [replaceNE_append_clean c v f _ hc hx]
        rw [show (rest.flatMap segText) = assemble rest from rfl, hrest]
        rfl

/-! ### `pyRfind` and `splitext` lemmas -/

/-- `rfind` reports `-1` exactly on absence. -/
theorem pyRfind_eq_neg_one (c : Char) :
    ∀ s : Str, c ∉ s → pyRfind c s = -1 := by
  intro s
  induction s with
  | nil => intro _; rfl
  | cons a rest ih =>
    intro h
    have ha : a ≠ c := fun hac => h (by simp [hac])
    have hrest : c ∉ rest := fun hc => h (by simp [hc])
    simp only [pyRfind, ih hrest]
    norm_num [ha]

/-- `rfind` locates a unique occurrence after a clean block. -/
theorem pyRfind_append_cons (c : Char) (body tail : Str) (htail : c ∉ tail) :
    pyRfind c (body ++ c :: tail) = body.length := by
  induction body with
  | nil =>
    simp only [List.nil_append, pyRfind, pyRfind_eq_neg_one c tail htail]
    norm_num
  | cons b body ih =>
    simp only [List.cons_append, pyRfind, List.append_eq, ih]
    have h0 : (body.length : Int) ≥ 0 := by positivity
    rw [if_pos h0]
    simp only [List.length_cons]
    omega

/-- `pyRfind` is at least `-1`. -/
theorem pyRfind_ge (c : Char) : ∀ s : Str, pyRfind c s ≥ -1 := by
  intro s
  induction s with
  | nil => norm_num [pyRfind]
  | cons a rest ih =>
    simp only [pyRfind]
    by_cases h : pyRfind c rest ≥ 0
    · simp only [h, if_pos]
      omega
    · simp only [h, if_neg]
      by_cases ha : a = c <;> simp [ha]

/-- Splitting a body followed by a single-dot extension, when neither side
contains a further dot or a slash: `splitext` recovers body and extension.
(This is how `generate_formatted_names` strips the extension that
`build_filename` appended.) -/
theorem splitext_body_ext (body tail : Str)
    (hbody : body ≠ []) (hb : ∀ ch ∈ body, ch ≠ '.' ∧ ch ≠ '/')
    (ht : ∀ ch ∈ tail, ch ≠ '.' ∧ ch ≠ '/') :
    splitext (body ++ '.' :: tail) = (body, '.' :: tail) := by
  have hslash : '/' ∉ body ++ '.' :: tail := by
    intro h
    rcases List.mem_append.mp h with h | h
    · exact (hb '/' h).2 rfl
    · rcases List.mem_cons.mp h with h | h
      · exact absurd h.symm (by decide)
      · exact (ht '/' h).2 rfl
  have hdotbody : '.' ∉ tail := fun h => (ht '.' h).1 rfl
  have hsi : pyRfind '/' (body ++ '.' :: tail) = -1 := pyRfind_eq_neg_one _ _ hslash
  have hdi : pyRfind '.' (body ++ '.' :: tail) = body.length :=
    pyRfind_append_cons '.' body tail hdotbody
  have hlen : 0 < body.length := List.length_pos.mpr hbody
  simp only [splitext, hsi, hdi]
  have hgt : (body.length : Int) > -1 := by omega
  rw [if_pos hgt]
  have hstart : ((-1 : Int) + 1).toNat = 0 := by norm_num
  rw [hstart]
  simp only [List.drop_zero, Nat.sub_zero, Int.toNat_natCast]
  have htake : (body ++ '.' :: tail).take body.length = body := List.take_left body _
  have hany : ((body ++ '.' :: tail).take body.length).any (fun ch => ch ≠ '.') = true := by
    rw [htake]
    rcases body with _ | ⟨b, body'⟩
    · exact absurd rfl hbody
    · have : b ≠ '.' := (hb b (by simp)).1
      simp [List.any_cons, this]
  rw [if_pos hany, htake]
  have hdrop : (body ++ '.' :: tail).drop body.length = '.' :: tail := List.drop_left body _
  rw [hdrop]

/-! ### Natural sort (the `natsort.natsorted` collaborator)

`natsorted` splits each string into runs of digits and non-digits,
converts digit runs to their numeric value, prepends an empty text chunk
when the string starts with a digit (so that keys always alternate
text, number, text, …), and sorts by lexicographic comparison of the
resulting key tuples. -/

/-- Numeric value of a digit run. -/
def digitsVal (ds : Str) : Nat :=
  ds.foldl (fun acc c => acc * 10 + (c.toNat - 48)) 0

/-- One key chunk: a text run or the value of a digit run (`Lex` of the
sum orders text chunks below number chunks, matching the tuple layout
natsort uses to keep comparisons well-typed). -/
abbrev NatChunk := Lex (Str ⊕ Nat)

/-- Splitter for `natChunks`; the fuel argument (any bound on the string
length) makes the recursion structural so that keys evaluate inside the
kernel. -/
def natChunksGo : Nat → Str → List NatChunk
  | 0, _ => []
  | _ + 1, [] => []
  | fuel + 1, c :: rest =>
    if c.isDigit then
      toLex (Sum.inr (digitsVal (c :: rest.takeWhile Char.isDigit))) ::
        natChunksGo fuel (rest.dropWhile Char.isDigit)
    else
      toLex (Sum.inl (c :: rest.takeWhile (fun ch => !ch.isDigit))) ::
        natChunksGo fuel (rest.dropWhile (fun ch => !ch.isDigit))

/-- Split a string into alternating digit/non-digit chunks. -/
def natChunks (s : Str) : List NatChunk := natChunksGo s.length s

/-- The natural-sort key of a string. -/
def natKey (s : Str) : List NatChunk :=
  match s with
  | c :: _ => if c.isDigit then toLex (Sum.inl []) :: natChunks s else natChunks s
  | [] => []

/-- The natural order on path strings: compare keys lexicographically. -/
def natLe (a b : Str) : Prop := natKey a ≤ natKey b

instance : DecidableRel natLe :=
  fun a b => inferInstanceAs (Decidable (natKey a ≤ natKey b))

instance : IsTotal Str natLe := ⟨fun a b => le_total (natKey a) (natKey b)⟩

instance : IsTrans Str natLe := ⟨fun _ _ _ hab hbc => le_trans hab hbc⟩

/-- `natsort.natsorted`: a stable sort of the paths by natural key. -/
def natsorted (l : List Str) : List Str := l.insertionSort natLe

/-! ### `file_manager.get_file_paths_and_extension` -/

/-- Failure modes of file discovery (`FileNotFoundError` and
`NotADirectoryError` concern the raw file system and are outside the
model: `files` below is already the list of regular files found in the
directory, in listing order, as absolute path strings). -/
inductive DiscoverError where
  | noFiles
  | mixedExtensions
  | extNotAllowed
deriving DecidableEq

instance {ε α : Type} [DecidableEq ε] [DecidableEq α] : DecidableEq (Except ε α) := fun a b =>
  match a, b with
  | .ok x, .ok y => if h : x = y then isTrue (by rw [h]) else isFalse (by simp [h])
  | .error x, .error y => if h : x = y then isTrue (by rw [h]) else isFalse (by simp [h])
  | .ok _, .error _ => isFalse (by simp)
  | .error _, .ok _ => isFalse (by simp)

/-- `get_file_paths_and_extension`: validate that the directory's regular
files are nonempty, share one (case-folded) extension, and that this
extension is allow-listed; return the naturally sorted absolute paths
paired with the common extension. -/
def get_file_paths_and_extension (files : List Str) (allowed_extensions : List Str) :
    Except DiscoverError (List Str × Str) :=
  if files.isEmpty then .error .noFiles
  else
    let extensions := (files.map (fun f => strLower (pySuffix f))).dedup
    if extensions.length ≠ 1 then .error .mixedExtensions
    else
      let ext := extensions.headD []
      let allowed_lower := allowed_extensions.map strLower
      if ext ∉ allowed_lower then .error .extNotAllowed
      else .ok (natsorted files, ext)

/-- Deduplicating a nonempty constant list yields the singleton. -/
theorem dedup_const (e : Str) :
    ∀ l : List Str, l ≠ [] → (∀ x ∈ l, x = e) → l.dedup = [e] := by
  intro l
  induction l with
  | nil => intro h _; exact absurd rfl h
  | cons a rest ih =>
    intro _ hall
    have ha : a = e := hall a (by simp)
    cases rest with
    | nil => simp [List.dedup, ha]
    | cons b rest' =>
      have hrest : (b :: rest').dedup = [e] :=
        ih (by simp) (fun x hx => hall x (by simp [hx]))
      have hb : b = e := hall b (by simp)
      have hmem : a ∈ b :: rest' := by
        rw [ha, ← hb]
        simp
      rw [List.dedup_cons_of_mem hmem, hrest]

/-! ### `excel_parser.generate_formatted_names` -/

/-- Decimal digits, with structural fuel (any bound on the digit
count). -/
def natDigitsGo : Nat → Nat → Str
  | 0, _ => []
  | fuel + 1, n =>
    if n < 10 then [Char.ofNat (48 + n)]
    else natDigitsGo fuel (n / 10) ++ [Char.ofNat (48 + n % 10)]

/-- Decimal digit characters of a natural number. -/
def natDigits (n : Nat) : Str := natDigitsGo (n + 1) n

/-- `str(int)`: sign followed by decimal digits. -/
def intStr (n : Int) : Str :=
  if n < 0 then '-' :: natDigits (-n).toNat else natDigits n.toNat

/-- A spreadsheet cell value: text, integer, or floating-point number.
Floats are modelled as rationals; `float.is_integer` is `den = 1`.  The
textual form of a float with no fractional part is exact (`2020.0`); for
other floats it abstracts Python's shortest-roundtrip `repr`, which no
claim constrains. -/
inductive PyValue where
  | s : Str → PyValue
  | i : Int → PyValue
  | f : Rat → PyValue
deriving DecidableEq

/-- Default textual form of a float (see `PyValue`). -/
def floatStr (q : Rat) : Str :=
  if q.den = 1 then intStr q.num ++ ('.' :: ['0'])
  else intStr q.num ++ ('/' :: natDigits q.den)

/-- Python `str(value)` on a cell value. -/
def pyStrVal : PyValue → Str
  | .s t => t
  | .i n => intStr n
  | .f q => floatStr q

/-- `generate_formatted_names`' coercion: a float with no fractional part
becomes the corresponding int (`float.is_integer` guard). -/
def coerceWhole : PyValue → PyValue
  | .f q => if q.den = 1 then .i q.num else .f q
  | v => v

/-- `str(value).strip()` after the whole-float coercion. -/
def formatCell (v : PyValue) : Str := pyStrip (pyStrVal (coerceWhole v))

/-- A loaded spreadsheet: ordered column names and ordered rows; each row
binds column names to cell values (`row[col]` is an association-list
lookup, `none` modelling pandas' `KeyError`). -/
structure DataFrame where
  columns : List Str
  rows : List (List (Str × PyValue))
deriving DecidableEq

/-- `generate_formatted_names(df, columns, format_string)`: drop the
extension from the format string, then for each row in order replace, for
each column name in order, every occurrence of the column name by the
row's formatted cell text.  `none` models the `KeyError` escaping when a
requested column is missing from a row. -/
def generate_formatted_names (df : DataFrame) (columns : List Str)
    (format_string : Str) : Option (List Str) :=
  let base := (splitext format_string).1
  df.rows.mapM (fun row =>
    columns.foldlM (fun temp col =>
      (List.lookup col row).map (fun v => replaceL col (formatCell v) temp)) base)

/-! ### `gui_batch_renamer.Application.start_renaming` (validation pipeline) -/

/-- ASCII `\w` of the confirm-time pattern `^[\w\-. ]+$`. -/
def wordCharB (c : Char) : Bool := c.isAlphanum || c = '_'

/-- The character class `[\w\-. ]` of the confirm-time pattern. -/
def formatClassB (c : Char) : Bool := wordCharB c || c = '-' || c = '.' || c = ' '

/-- `re.match(r"^[\w\-. ]+$", s) is not None`: one or more class
characters spanning the whole string — or all but one final newline,
which Python's `$` also accepts. -/
def regexFormatOk (s : Str) : Bool :=
  (!s.isEmpty && s.all formatClassB) ||
    (s.getLast? = some '\n' && !s.dropLast.isEmpty && s.dropLast.all formatClassB)

/-- The failures `start_renaming` reports before renaming begins. -/
inductive StageError where
  | missingColumns : List Str → StageError
  | invalidChars : StageError
  | lookupFailed : StageError
  | emptyNames : StageError
deriving DecidableEq

/-- The validation pipeline of `start_renaming`, in source order: collect
all selected columns absent from the data frame (one combined failure);
match the assembled format string against `^[\w\-. ]+$`; generate the
names; reject an empty name list. -/
def start_renaming_validate (df : DataFrame) (selected_options : List Str)
    (format_str : Str) : Except StageError (List Str) :=
  let missing_columns := selected_options.filter (fun col => col ∉ df.columns)
  if missing_columns ≠ [] then .error (.missingColumns missing_columns)
  else if !regexFormatOk format_str then .error .invalidChars
  else
    match generate_formatted_names df selected_options format_str with
    | none => .error .lookupFailed
    | some new_names => if new_names = [] then .error .emptyNames else .ok new_names

/-! ### `file_manager.rename_files` -/

/-- The abstract file store: an association of paths to file identities.
A single rename fails when the source is absent or a distinct destination
path already exists (modelling `OSError` from `Path.rename`; the
orchestration claims hold for any such per-file failure model). -/
def FileStore := List (Str × Nat)

instance : DecidableEq FileStore := inferInstanceAs (DecidableEq (List (Str × Nat)))

/-- One `Path.rename`: move the entry at `src` to `dst`. -/
def renameOne (fs : FileStore) (src dst : Str) : Option FileStore :=
  match List.lookup src fs with
  | none => none
  | some v =>
    if src ≠ dst ∧ (List.lookup dst fs).isSome then none
    else some ((dst, v) :: fs.filter (fun e => e.1 ≠ src))

/-- `new + original_path.suffix`, placed in `original_path.parent`. -/
def destPath (original newName : Str) : Str :=
  pyJoin (pyParent original) (newName ++ pySuffix original)

/-- The `ValueError` message of the count check (it does not mention the
two counts). -/
def countMismatchMsg : Str :=
  ("The number of original files and new names does not match.").toList

/-- Failures surfaced by `rename_files`: the count-mismatch `ValueError`,
or an `OSError` escaping from the rename loop at a pair (identified by
its position and paths). -/
inductive RenameError where
  | countMismatch : Str → RenameError
  | renameFailed : Nat → Str → Str → RenameError
deriving DecidableEq

/-- Result of a `rename_files` call: the file store afterwards and the
failure, if any. -/
structure RenameOutcome where
  fs : FileStore
  err : Option RenameError
deriving DecidableEq

/-- The rename loop: process the pairs strictly in order; an error aborts
the remaining pairs and keeps the renames already performed. -/
def renameLoop (fs : FileStore) (idx : Nat) : List (Str × Str) → RenameOutcome
  | [] => ⟨fs, none⟩
  | (original, newName) :: rest =>
    let dst := destPath original newName
    match renameOne fs original dst with
    | none => ⟨fs, some (.renameFailed idx original dst)⟩
    | some fs2 => renameLoop fs2 (idx + 1) rest

/-- `rename_files(original_files, new_names)`: discard a leading empty
new name, require equal counts, then rename each positional pair in
order. -/
def rename_files (fs : FileStore) (original_files new_names : List Str) : RenameOutcome :=
  let names := if new_names ≠ [] ∧ new_names.headD [] = [] then new_names.tail else new_names
  if original_files.length ≠ names.length then
    ⟨fs, some (.countMismatch countMismatchMsg)⟩
  else renameLoop fs 0 (original_files.zip names)

/-! ### `gui_batch_renamer.Application` (wizard state machine) -/

/-- The observable state the stage gating reads: the page index plus what
each readiness predicate inspects (`stage_conditions` in
`is_stage_ready`). -/
structure WizardState where
  pageIndex : Nat
  directoryChosen : Bool
  fileCount : Nat
  excelChosen : Bool
  selectedCount : Nat
  formatNonEmpty : Bool
deriving DecidableEq

/-- `len(self.pages)`: the four stages. -/
def numPages : Nat := 4

/-- `is_stage_ready`: the per-stage readiness predicate (the dictionary
lookup defaults to not-ready). -/
def is_stage_ready (s : WizardState) : Bool :=
  match s.pageIndex with
  | 0 => s.directoryChosen && decide (1 < s.fileCount)
  | 1 => s.excelChosen && decide (0 < s.selectedCount)
  | 2 => s.formatNonEmpty
  | 3 => false
  | _ => false

/-- `change_page(direction)`: step the page index when the target stays
within `[0, len(pages))`, else do nothing. -/
def change_page (s : WizardState) (direction : Int) : WizardState :=
  let newIndex : Int := (s.pageIndex : Int) + direction
  if 0 ≤ newIndex ∧ newIndex < (numPages : Int) then
    { s with pageIndex := newIndex.toNat }
  else s

/-- `_get_next_button_state`: the Next button is clickable iff the stage
is ready. -/
def nextEnabled (s : WizardState) : Bool := is_stage_ready s

/-- `_get_prev_button_state`: the Previous button is clickable iff the
stage is not the first. -/
def prevEnabled (s : WizardState) : Bool := decide (0 < s.pageIndex)

/-- A user transition: clicking an enabled pager button. -/
inductive WizardStep : WizardState → WizardState → Prop where
  | next {s : WizardState} : nextEnabled s = true → WizardStep s (change_page s 1)
  | back {s : WizardState} : prevEnabled s = true → WizardStep s (change_page s (-1))

/-! ### `gui_drag_and_drop.DragAndDropFixedInputs.reorder_label` -/

/-- `CELL_WIDTH` of gui_drag_and_drop.py. -/
def CELL_WIDTH : Nat := 120

/-- Python `round(a / b)` for integers with `b > 0` (banker's rounding:
ties go to the even integer).  `a / b` here is exact division; the
program divides machine integers as floats, which agrees on every
widget-scale input. -/
def pyRoundDiv (a b : Int) : Int :=
  let f := a / b
  let r := a % b
  if 2 * r < b then f
  else if b < 2 * r then f + 1
  else if f % 2 = 0 then f else f + 1

/-- `list.insert(i, x)`: clamp the index to the list length (unlike
`List.insertIdx`, which discards out-of-range insertions). -/
def pyInsert (l : List Str) (i : Nat) (a : Str) : List Str :=
  if l.length ≤ i then l ++ [a] else l.insertIdx i a

/-- `reorder_label`: map the drop x-coordinate to the nearest slot index
(each slot is `2 * CELL_WIDTH` pixels wide), clamp it to
`[0, len(labels) - 1]`, remove the dragged label, and re-insert it at
the target slot.  (The division `drop_x / (cell_width * 2)` is exact
rational division; widget coordinates are far below the range where the
Python float division could round.) -/
def reorder_label (labels : List Str) (label : Str) (drop_x : Int) : List Str :=
  let target0 : Int := pyRoundDiv drop_x ((CELL_WIDTH : Int) * 2)
  let target : Int := max 0 (min target0 ((labels.length : Int) - 1))
  let removed := if label ∈ labels then labels.erase label else labels
  pyInsert removed target.toNat label

/-! ### Supporting lemmas for the generator -/

/-- The inner substitution loop never fails when the row binds every
requested column, and then equals the pure fold. -/
theorem foldlM_subst_eq (row : List (Str × PyValue)) (columns : List Str)
    (h : ∀ col ∈ columns, (List.lookup col row).isSome = true) :
    ∀ base : Str,
      columns.foldlM (fun temp col =>
        (List.lookup col row).map (fun v => replaceL col (formatCell v) temp)) base
      = some (columns.foldl (fun temp col =>
          replaceL col (formatCell ((List.lookup col row).getD (.s []))) temp) base) := by
  induction columns with
  | nil => intro base; rfl
  | cons c cs ih =>
    intro base
    have hc : (List.lookup c row).isSome = true := h c (by simp)
    rcases Option.isSome_iff_exists.mp hc with ⟨v, hv⟩
    rw [List.foldlM_cons, List.foldl_cons, hv]
    simp only [Option.map_some', Option.getD_some, Option.bind_eq_bind, Option.some_bind]
    exact ih (fun col hcol => h col (by simp [hcol])) _

/-- `mapM` over `Option` is the plain map when every element succeeds. -/
theorem mapM_eq_map_of_some {α β : Type} (f : α → Option β) (g : α → β) :
    ∀ l : List α, (∀ a ∈ l, f a = some (g a)) → l.mapM f = some (l.map g) := by
  intro l
  induction l with
  | nil => intro _; rfl
  | cons a rest ih =>
    intro h
    rw [List.mapM_cons, h a (by simp), ih (fun x hx => h x (by simp [hx]))]
    rfl

/-- The data table of the spec's whole-float example: one column `Year`,
one row with the float value `2020.0`. -/
def yearTable : DataFrame :=
  ⟨[(("Year").toList)], [[((("Year").toList), .f 2020)]]⟩

/-- C3: for every table, selected-field list and template, when every row
binds every selected field, generation yields exactly one name per row in
row order; each name arises from the template stripped of its extension
by replacing, field by field, every occurrence of the field name with the
row's cell value formatted as text (whole floats coerced to integer text,
whitespace trimmed); no extension is appended.  The whole-float anchor:
`Year = 2020.0` under template `"Year-Report"` yields `"2020-Report"`. -/
theorem generate_one_trimmed_name_per_row (df : DataFrame) (columns : List Str)
    (format_string : Str)
    (hpresent : ∀ row ∈ df.rows, ∀ col ∈ columns, (List.lookup col row).isSome = true) :
    generate_formatted_names df columns format_string
      = some (df.rows.map (fun row =>
          columns.foldl (fun temp col =>
            replaceL col (formatCell ((List.lookup col row).getD (.s []))) temp)
            (splitext format_string).1)) ∧
    (df.rows.map (fun row =>
        columns.foldl (fun temp col =>
          replaceL col (formatCell ((List.lookup col row).getD (.s []))) temp)
        (splitext format_string).1)).length = df.rows.length ∧
    generate_formatted_names yearTable [(("Year").toList)] (("Year-Report").toList)
      = some [(("2020-Report").toList)] := by
  refine ⟨?_, List.length_map _ _, by decide⟩
  unfold generate_formatted_names
  exact mapM_eq_map_of_some _ _ df.rows
    (fun row hrow => foldlM_subst_eq row columns (hpresent row hrow) _)

/-- C3 witness: the anchor table satisfies the presence hypothesis. -/
theorem generate_one_trimmed_name_per_row_witness :
    generate_formatted_names yearTable [(("Year").toList)] (("Year-Report").toList)
      = some [(("2020-Report").toList)] :=
  (generate_one_trimmed_name_per_row yearTable [(("Year").toList)]
    (("Year-Report").toList) (by decide)).2.2

/-- C6: with any selected field absent from the table's columns,
`start_renaming` fails before generating anything, with one failure that
enumerates exactly the missing columns (membership in the reported list
is equivalent to being a selected-but-absent field). -/
theorem missing_columns_enumerated (df : DataFrame) (selected_options : List Str)
    (format_str : Str)
    (h : selected_options.filter (fun col => col ∉ df.columns) ≠ []) :
    start_renaming_validate df selected_options format_str
      = .error (.missingColumns (selected_options.filter (fun col => col ∉ df.columns))) ∧
    ∀ col, col ∈ selected_options.filter (fun col => col ∉ df.columns) ↔
      (col ∈ selected_options ∧ col ∉ df.columns) := by
  constructor
  · unfold start_renaming_validate
    rw [if_pos h]
  · intro col
    rw [List.mem_filter]
    simp

/-- C6 witness: selecting a column absent from an empty table. -/
theorem missing_columns_enumerated_witness :
    start_renaming_validate ⟨[], []⟩ [(("A").toList)] (("A-B").toList)
      = .error (.missingColumns [(("A").toList)]) ∧
    ∀ col, col ∈ ([(("A").toList)] : List Str).filter
        (fun col => col ∉ (⟨[], []⟩ : DataFrame).columns) ↔
      (col ∈ [(("A").toList)] ∧ col ∉ (⟨[], []⟩ : DataFrame).columns) := by
  have h := missing_columns_enumerated ⟨[], []⟩ [(("A").toList)] (("A-B").toList) (by decide)
  exact ⟨by simpa using h.1, h.2⟩

/-! ### C2: the two character validations -/

/-- The allow-list named by the spec sentence: alphanumerics plus the
entry-time separator characters (hyphen, underscore, comma, semicolon,
space).  Stated from the claim's words, for comparison with the code's
two actual validators. -/
def claimAllowListChar (c : Char) : Bool := c.isAlphanum || ALLOWED_CHARS.contains c

/-- C2 counterexample: `"a,b"` lies entirely inside the claimed
allow-list, yet confirm-time validation rejects it with
InvalidCharacters (the regex class `[\w\-. ]` has no comma). -/
theorem confirm_rejects_comma_counterexample :
    (∀ ch ∈ (("a,b").toList), claimAllowListChar ch = true) ∧
    start_renaming_validate ⟨[], []⟩ [] (("a,b").toList) = .error .invalidChars := by
  exact ⟨by decide, by decide⟩

/-- C2 (amended): at confirm time a template passes the character check
iff it is nonempty and made of word characters, hyphen, dot and space
(with Python's `$` also tolerating one final newline); the entry-time
validator accepts exactly strings over hyphen, underscore, comma,
semicolon, space.  The two sets genuinely differ: comma and semicolon
pass entry-time but fail confirm-time, alphanumerics and dot are the
other way around. -/
theorem character_validations_characterized :
    (∀ (df : DataFrame) (selected_options : List Str) (s : Str),
      selected_options.filter (fun col => col ∉ df.columns) = [] →
      (start_renaming_validate df selected_options s = .error .invalidChars ↔
        regexFormatOk s = false)) ∧
    (∀ s : Str, regexFormatOk s = true ↔
      ((s ≠ [] ∧ ∀ ch ∈ s, formatClassB ch = true) ∨
       (∃ b : Str, s = b ++ ['\n'] ∧ b ≠ [] ∧ ∀ ch ∈ b, formatClassB ch = true))) ∧
    (∀ s : Str, validate_input s = true ↔ ∀ ch ∈ s, ALLOWED_CHARS.contains ch = true) ∧
    (formatClassB ',' = false ∧ formatClassB ';' = false ∧ formatClassB '.' = true ∧
      ALLOWED_CHARS.contains ',' = true ∧ ALLOWED_CHARS.contains ';' = true ∧
      wordCharB 'a' = true ∧ ALLOWED_CHARS.contains 'a' = false) := by
  refine ⟨?_, ?_, ?_, by decide⟩
  · intro df selected_options s hmiss
    unfold start_renaming_validate
    rw [hmiss]
    simp only [ne_eq, not_true_eq_false, if_false, reduceIte]
    constructor
    · intro hres
      by_cases hre : regexFormatOk s = true
      · exfalso
        rw [hre] at hres
        simp only [Bool.not_true, Bool.false_eq_true, if_false, reduceIte] at hres
        rcases hgen : generate_formatted_names df selected_options s with _ | names
        · rw [hgen] at hres
          simp at hres
        · rw [hgen] at hres
          by_cases hn : names = []
          · subst hn
            simp at hres
          · simp [hn] at hres
      · cases hb : regexFormatOk s
        · rfl
        · exact absurd hb hre
    · intro hre
      rw [hre]
      rfl
  · intro s
    unfold regexFormatOk
    simp only [Bool.or_eq_true, Bool.and_eq_true, List.all_eq_true, decide_eq_true_eq,
      Bool.not_eq_true', List.isEmpty_eq_false]
    constructor
    · rintro (⟨hne, hall⟩ | ⟨⟨hlast, hne⟩, hall⟩)
      · exact Or.inl ⟨hne, hall⟩
      · right
        have hsne : s ≠ [] := by
          intro hnil
          rw [hnil] at hlast
          exact absurd hlast (by simp)
        have hlastval : s.getLast hsne = '\n' := by
          have hg := List.getLast?_eq_getLast s hsne
          rw [hg] at hlast
          exact Option.some.inj hlast
        refine ⟨s.dropLast, ?_, hne, hall⟩
        rw [← hlastval]
        exact (List.dropLast_append_getLast hsne).symm
    · rintro (⟨hne, hall⟩ | ⟨b, hb, hbne, hall⟩)
      · exact Or.inl ⟨hne, hall⟩
      · right
        subst hb
        rw [List.dropLast_concat]
        exact ⟨⟨List.getLast?_concat b, hbne⟩, hall⟩
  · intro s
    unfold validate_input
    by_cases hs : s = []
    · subst hs
      simp
    · rw [if_neg hs]
      exact List.all_eq_true

/-- C2 witness: the characterisations applied to concrete inputs. -/
theorem character_validations_characterized_witness :
    (start_renaming_validate ⟨[], []⟩ [] (("x;y").toList) = .error .invalidChars ↔
      regexFormatOk (("x;y").toList) = false) ∧
    (validate_input (("-,").toList) = true ↔
      ∀ ch ∈ (("-,").toList), ALLOWED_CHARS.contains ch = true) :=
  ⟨character_validations_characterized.1 ⟨[], []⟩ [] (("x;y").toList) rfl,
   character_validations_characterized.2.2.1 (("-,").toList)⟩

/-! ### C1, C7, C10: the rename executor -/

/-- Apply the first `k` rename pairs sequentially (`none` if one of them
fails); the reference against which the loop is characterised. -/
def execFirst (fs : FileStore) (pairs : List (Str × Str)) (k : Nat) : Option FileStore :=
  (pairs.take k).foldlM (fun f pr => renameOne f pr.1 (destPath pr.1 pr.2)) fs

/-- C1 (amended): when the lengths differ after discarding a leading
empty new name, `rename_files` fails with the count-mismatch error and
touches no file; its fixed message contains no digit at all, so it does
not name either count. -/
theorem count_mismatch_no_changes (fs : FileStore) (original_files new_names : List Str)
    (h : original_files.length ≠
      (if new_names ≠ [] ∧ new_names.headD [] = [] then new_names.tail else new_names).length) :
    rename_files fs original_files new_names
      = ⟨fs, some (.countMismatch countMismatchMsg)⟩ ∧
    ∀ ch ∈ countMismatchMsg, ch.isDigit = false := by
  refine ⟨?_, by decide⟩
  unfold rename_files
  rw [if_pos h]

/-- C1 witness: three files against two names. -/
theorem count_mismatch_no_changes_witness :
    rename_files [] [(("/d/a.pdf").toList), (("/d/b.pdf").toList), (("/d/c.pdf").toList)]
      [(("x").toList), (("y").toList)]
      = ⟨[], some (.countMismatch countMismatchMsg)⟩ ∧
    ∀ ch ∈ countMismatchMsg, ch.isDigit = false :=
  count_mismatch_no_changes [] [(("/d/a.pdf").toList), (("/d/b.pdf").toList), (("/d/c.pdf").toList)]
    [(("x").toList), (("y").toList)] (by decide)

/-- C1 counterexample: with three files and two names the failure is
reported, but its detail does not contain `"3"` or `"2"` — the message
names neither count, contradicting the claim's "failure detail names
both counts". -/
theorem count_mismatch_message_lacks_counts :
    rename_files [] [(("/d/a.pdf").toList), (("/d/b.pdf").toList), (("/d/c.pdf").toList)]
      [(("x").toList), (("y").toList)]
      = ⟨[], some (.countMismatch countMismatchMsg)⟩ ∧
    ¬ ((("3").toList) <:+: countMismatchMsg) ∧
    ¬ ((("2").toList) <:+: countMismatchMsg) := by
  exact ⟨by decide, by decide, by decide⟩

/-- The rename loop, characterised: some first `k` pairs are applied
sequentially in order; either all pairs succeeded, or the loop stops at
pair `k`, reports its index and paths, and keeps the first `k` renames
(no rollback). -/
theorem renameLoop_characterised :
    ∀ (pairs : List (Str × Str)) (fs : FileStore) (i : Nat),
      ∃ k, k ≤ pairs.length ∧ ∃ fsk, execFirst fs pairs k = some fsk ∧
        ((k = pairs.length ∧ renameLoop fs i pairs = ⟨fsk, none⟩) ∨
         (∃ o n, pairs[k]? = some (o, n) ∧ renameOne fsk o (destPath o n) = none ∧
           renameLoop fs i pairs = ⟨fsk, some (.renameFailed (i + k) o (destPath o n))⟩)) := by
  intro pairs
  induction pairs with
  | nil =>
    intro fs i
    exact ⟨0, by simp, fs, rfl, Or.inl ⟨rfl, rfl⟩⟩
  | cons pr rest ih =>
    intro fs i
    rcases pr with ⟨o, n⟩
    rcases hren : renameOne fs o (destPath o n) with _ | fs2
    · refine ⟨0, by simp, fs, rfl, Or.inr ⟨o, n, by simp, hren, ?_⟩⟩
      simp only [renameLoop, hren, Nat.add_zero]
    · rcases ih fs2 (i + 1) with ⟨k, hk, fsk, hexec, hrest⟩
      refine ⟨k + 1, by simpa using hk, fsk, ?_, ?_⟩
      · unfold execFirst
        rw [List.take_succ_cons, List.foldlM_cons, hren]
        exact hexec
      · have hloop : renameLoop fs i ((o, n) :: rest) = renameLoop fs2 (i + 1) rest := by
          simp only [renameLoop, hren]
        rcases hrest with ⟨hkeq, hdone⟩ | ⟨o', n', hget, hfail, hstop⟩
        · exact Or.inl ⟨by simp [hkeq], by rw [hloop, hdone]⟩
        · refine Or.inr ⟨o', n', by simpa using hget, hfail, ?_⟩
          rw [hloop, hstop]
          have : i + 1 + k = i + (k + 1) := by omega
          rw [this]

/-- C7 (amended): for equal-length lists whose first new name is not the
empty string, `rename_files` runs the loop over the positional pairs:
some first `k` pairs are applied strictly in order, each to the
destination `parent / (new name + original suffix)`; either every pair
succeeded, or the run aborts at pair `k`, surfacing that index and its
paths, with the earlier renames kept (no rollback). -/
theorem rename_processes_pairs_in_order (fs : FileStore) (original_files new_names : List Str)
    (hlen : original_files.length = new_names.length)
    (hhead : new_names = [] ∨ new_names.headD [] ≠ []) :
    ∃ k, k ≤ (original_files.zip new_names).length ∧
      ∃ fsk, execFirst fs (original_files.zip new_names) k = some fsk ∧
        ((k = (original_files.zip new_names).length ∧
            rename_files fs original_files new_names = ⟨fsk, none⟩) ∨
         (∃ o n, (original_files.zip new_names)[k]? = some (o, n) ∧
           renameOne fsk o (destPath o n) = none ∧
           rename_files fs original_files new_names
             = ⟨fsk, some (.renameFailed k o (destPath o n))⟩)) := by
  have hdiscard : ¬ (new_names ≠ [] ∧ new_names.headD [] = []) := by
    rcases hhead with h | h
    · intro hc
      exact hc.1 h
    · intro hc
      exact h hc.2
  have hrw : rename_files fs original_files new_names
      = renameLoop fs 0 (original_files.zip new_names) := by
    unfold rename_files
    rw [if_neg hdiscard]
    rw [if_neg (by rw [hlen]; omega)]
  rcases renameLoop_characterised (original_files.zip new_names) fs 0 with
    ⟨k, hk, fsk, hexec, hrest⟩
  refine ⟨k, hk, fsk, hexec, ?_⟩
  rcases hrest with ⟨hkeq, hdone⟩ | ⟨o, n, hget, hfail, hstop⟩
  · exact Or.inl ⟨hkeq, by rw [hrw, hdone]⟩
  · exact Or.inr ⟨o, n, hget, hfail, by rw [hrw, hstop]; simp⟩

/-- C7 witness: two files renamed successfully. -/
theorem rename_processes_pairs_in_order_witness :
    ∃ k, k ≤ ([(("/d/a.pdf").toList), (("/d/b.pdf").toList)].zip
        [(("x").toList), (("y").toList)]).length ∧
      ∃ fsk, execFirst [((("/d/a.pdf").toList), 0), ((("/d/b.pdf").toList), 1)]
          ([(("/d/a.pdf").toList), (("/d/b.pdf").toList)].zip
            [(("x").toList), (("y").toList)]) k = some fsk ∧
        ((k = ([(("/d/a.pdf").toList), (("/d/b.pdf").toList)].zip
              [(("x").toList), (("y").toList)]).length ∧
            rename_files [((("/d/a.pdf").toList), 0), ((("/d/b.pdf").toList), 1)]
              [(("/d/a.pdf").toList), (("/d/b.pdf").toList)]
              [(("x").toList), (("y").toList)] = ⟨fsk, none⟩) ∨
         (∃ o n, ([(("/d/a.pdf").toList), (("/d/b.pdf").toList)].zip
              [(("x").toList), (("y").toList)])[k]? = some (o, n) ∧
           renameOne fsk o (destPath o n) = none ∧
           rename_files [((("/d/a.pdf").toList), 0), ((("/d/b.pdf").toList), 1)]
             [(("/d/a.pdf").toList), (("/d/b.pdf").toList)]
             [(("x").toList), (("y").toList)]
             = ⟨fsk, some (.renameFailed k o (destPath o n))⟩)) :=
  rename_processes_pairs_in_order
    [((("/d/a.pdf").toList), 0), ((("/d/b.pdf").toList), 1)]
    [(("/d/a.pdf").toList), (("/d/b.pdf").toList)]
    [(("x").toList), (("y").toList)] (by decide) (by decide)

/-- C7 counterexample: equal-length lists (one file, one name) whose
first name is empty.  The claim promises positional processing with a
constructed destination for the pair; instead the leading empty name is
discarded, the lengths then differ, and the call fails with
CountMismatch without attempting any pair. -/
theorem equal_length_leading_empty_mismatch :
    ([(("/d/a.pdf").toList)] : List Str).length = ([([] : Str)] : List Str).length ∧
    rename_files [((("/d/a.pdf").toList), 0)] [(("/d/a.pdf").toList)] [([] : Str)]
      = ⟨[((("/d/a.pdf").toList), 0)], some (.countMismatch countMismatchMsg)⟩ := by
  exact ⟨by decide, by decide⟩

/-- C10: an empty string anywhere after the first position is not
discarded: with no leading empty name the list is used verbatim, pair `j`
carries the empty name, and its constructed destination is the original
file's parent joined with just the original extension (the basename is
the bare extension, e.g. `.pdf`). -/
theorem nonleading_empty_name_used_verbatim (fs : FileStore)
    (original_files new_names : List Str) (j : Nat) (o : Str)
    (hhead : new_names.headD [] ≠ [])
    (hlen : original_files.length = new_names.length)
    (_hj : 0 < j)
    (hname : new_names[j]? = some [])
    (hfile : original_files[j]? = some o) :
    rename_files fs original_files new_names
      = renameLoop fs 0 (original_files.zip new_names) ∧
    (original_files.zip new_names)[j]? = some (o, []) ∧
    destPath o [] = pyJoin (pyParent o) (pySuffix o) := by
  refine ⟨?_, ?_, rfl⟩
  · have hdiscard : ¬ (new_names ≠ [] ∧ new_names.headD [] = []) := fun hc => hhead hc.2
    have hlen2 : ¬ (original_files.length ≠ new_names.length) := fun hne => hne hlen
    unfold rename_files
    rw [if_neg hdiscard, if_neg hlen2]
  · exact (List.getElem?_zip_eq_some).mpr ⟨hfile, hname⟩

/-- C10 witness: the second of two names is empty and reaches the loop
verbatim with destination `/d/.pdf`. -/
theorem nonleading_empty_name_used_verbatim_witness :
    rename_files [((("/d/a.pdf").toList), 0), ((("/d/b.pdf").toList), 1)]
      [(("/d/a.pdf").toList), (("/d/b.pdf").toList)] [(("x").toList), ([] : Str)]
      = renameLoop [((("/d/a.pdf").toList), 0), ((("/d/b.pdf").toList), 1)] 0
          ([(("/d/a.pdf").toList), (("/d/b.pdf").toList)].zip [(("x").toList), ([] : Str)]) ∧
    ([(("/d/a.pdf").toList), (("/d/b.pdf").toList)].zip
        [(("x").toList), ([] : Str)])[1]? = some ((("/d/b.pdf").toList), []) ∧
    destPath (("/d/b.pdf").toList) [] =
      pyJoin (pyParent (("/d/b.pdf").toList)) (pySuffix (("/d/b.pdf").toList)) :=
  nonleading_empty_name_used_verbatim
    [((("/d/a.pdf").toList), 0), ((("/d/b.pdf").toList), 1)]
    [(("/d/a.pdf").toList), (("/d/b.pdf").toList)] [(("x").toList), ([] : Str)]
    1 (("/d/b.pdf").toList) (by decide) (by decide) (by decide) (by decide) (by decide)

/-! ### C4: discovery returns a natural-sorted permutation -/

/-- C4: for at least two files all sharing one case-folded extension that
is allow-listed, discovery succeeds with exactly the input files —
each exactly once (a permutation), ordered by the natural sort of the
absolute paths — paired with the common extension.  The numeric anchor:
`file2` sorts strictly before `file10`. -/
theorem discover_sorted_permutation (files : List Str) (allowed_extensions : List Str)
    (e : Str) (h2 : 2 ≤ files.length)
    (hext : ∀ f ∈ files, strLower (pySuffix f) = e)
    (hallow : e ∈ allowed_extensions.map strLower) :
    get_file_paths_and_extension files allowed_extensions = .ok (natsorted files, e) ∧
    (natsorted files).Perm files ∧
    List.Sorted natLe (natsorted files) ∧
    natLe (("file2").toList) (("file10").toList) ∧
    ¬ natLe (("file10").toList) (("file2").toList) := by
  have hne : files ≠ [] := by
    intro h
    rw [h] at h2
    simp at h2
  refine ⟨?_, List.perm_insertionSort natLe files, List.sorted_insertionSort natLe files,
    by decide, by decide⟩
  unfold get_file_paths_and_extension
  have hnotempty : files.isEmpty = false := by
    rw [List.isEmpty_eq_false]
    exact hne
  rw [hnotempty]
  simp only [Bool.false_eq_true, if_false, reduceIte]
  have hmapne : files.map (fun f => strLower (pySuffix f)) ≠ [] := by
    simp [hne]
  have hmapconst : ∀ x ∈ files.map (fun f => strLower (pySuffix f)), x = e := by
    intro x hx
    rcases List.mem_map.mp hx with ⟨f, hf, hfx⟩
    rw [← hfx]
    exact hext f hf
  have hdedup : (files.map (fun f => strLower (pySuffix f))).dedup = [e] :=
    dedup_const e _ hmapne hmapconst
  rw [hdedup]
  simp only [List.length_cons, List.length_nil, ne_eq, Nat.succ_ne_self,
    not_true_eq_false, if_false, reduceIte, List.headD_cons]
  rw [if_neg (by simp [hallow])]

/-- C4 witness: two pdf files, listed out of natural order. -/
theorem discover_sorted_permutation_witness :
    get_file_paths_and_extension [(("/d/file10.pdf").toList), (("/d/file2.pdf").toList)]
        [((".pdf").toList)]
      = .ok (natsorted [(("/d/file10.pdf").toList), (("/d/file2.pdf").toList)],
          ((".pdf").toList)) ∧
    (natsorted [(("/d/file10.pdf").toList), (("/d/file2.pdf").toList)]).Perm
      [(("/d/file10.pdf").toList), (("/d/file2.pdf").toList)] ∧
    List.Sorted natLe (natsorted [(("/d/file10.pdf").toList), (("/d/file2.pdf").toList)]) ∧
    natLe (("file2").toList) (("file10").toList) ∧
    ¬ natLe (("file10").toList) (("file2").toList) :=
  discover_sorted_permutation [(("/d/file10.pdf").toList), (("/d/file2.pdf").toList)]
    [((".pdf").toList)] ((".pdf").toList) (by decide) (by decide) (by decide)

/-! ### C8: the wizard state machine -/

/-- C8: every enabled pager transition moves the page index by exactly
one and keeps it within `[0, 3]`; the forward step from the initial
SelectFolder stage is enabled exactly when a folder has been chosen and
more than one file was discovered; the backward step is enabled exactly
off the initial stage. -/
theorem wizard_stage_invariants :
    (∀ s s' : WizardState, s.pageIndex ≤ 3 → WizardStep s s' →
      (s'.pageIndex ≤ 3 ∧
        (s'.pageIndex = s.pageIndex + 1 ∨ s'.pageIndex + 1 = s.pageIndex))) ∧
    (∀ s : WizardState, s.pageIndex = 0 →
      (nextEnabled s = true ↔ (s.directoryChosen = true ∧ 1 < s.fileCount))) ∧
    (∀ s : WizardState, prevEnabled s = true ↔ 0 < s.pageIndex) := by
  refine ⟨?_, ?_, ?_⟩
  · intro s s' hle hstep
    cases hstep with
    | next hen =>
      have hlt : s.pageIndex < 3 := by
        rcases Nat.lt_or_ge s.pageIndex 3 with h | h
        · exact h
        · exfalso
          have h3 : s.pageIndex = 3 := by omega
          unfold nextEnabled is_stage_ready at hen
          rw [h3] at hen
          simp at hen
      unfold change_page
      rw [if_pos (by constructor <;> [omega; (unfold numPages; omega)])]
      constructor
      · simp only [Int.toNat_of_nonneg (by omega : (0:Int) ≤ (s.pageIndex : Int) + 1)]
        omega
      · left
        simp only [Int.toNat_of_nonneg (by omega : (0:Int) ≤ (s.pageIndex : Int) + 1)]
        omega
    | back hen =>
      have hpos : 0 < s.pageIndex := by
        unfold prevEnabled at hen
        simpa using hen
      unfold change_page
      rw [if_pos (by constructor <;> [omega; (unfold numPages; omega)])]
      dsimp only
      constructor
      · have : ((s.pageIndex : Int) + -1).toNat = s.pageIndex - 1 := by omega
        rw [this]
        omega
      · right
        have : ((s.pageIndex : Int) + -1).toNat = s.pageIndex - 1 := by omega
        rw [this]
        omega
  · intro s h0
    unfold nextEnabled is_stage_ready
    rw [h0]
    simp
  · intro s
    unfold prevEnabled
    simp

/-- C8 witness: stage 0 with a chosen folder and two files steps forward
to stage 1. -/
theorem wizard_stage_invariants_witness :
    ((change_page ⟨0, true, 2, false, 0, false⟩ 1).pageIndex ≤ 3 ∧
      ((change_page ⟨0, true, 2, false, 0, false⟩ 1).pageIndex
          = (⟨0, true, 2, false, 0, false⟩ : WizardState).pageIndex + 1 ∨
        (change_page ⟨0, true, 2, false, 0, false⟩ 1).pageIndex + 1
          = (⟨0, true, 2, false, 0, false⟩ : WizardState).pageIndex)) ∧
    (nextEnabled ⟨0, true, 2, false, 0, false⟩ = true ↔
      ((⟨0, true, 2, false, 0, false⟩ : WizardState).directoryChosen = true ∧
        1 < (⟨0, true, 2, false, 0, false⟩ : WizardState).fileCount)) :=
  ⟨wizard_stage_invariants.1 ⟨0, true, 2, false, 0, false⟩ _ (by decide)
      (WizardStep.next (by decide)),
   wizard_stage_invariants.2.1 ⟨0, true, 2, false, 0, false⟩ rfl⟩

/-! ### C9: drop-position clamping in `reorder_label` -/

/-- Lower bound: banker's rounding never goes below the floor. -/
theorem pyRoundDiv_ge_ediv (a b : Int) : a / b ≤ pyRoundDiv a b := by
  unfold pyRoundDiv
  by_cases h1 : 2 * (a % b) < b
  · rw [if_pos h1]
  · rw [if_neg h1]
    by_cases h2 : b < 2 * (a % b)
    · rw [if_pos h2]
      omega
    · rw [if_neg h2]
      by_cases h3 : a / b % 2 = 0
      · rw [if_pos h3]
      · rw [if_neg h3]
        omega

/-- `round` of an exact multiple. -/
theorem pyRoundDiv_mul_self (n b : Int) (hb : 0 < b) : pyRoundDiv (n * b) b = n := by
  unfold pyRoundDiv
  have hdiv : n * b / b = n := Int.mul_ediv_cancel n (by omega)
  have hmod : n * b % b = 0 := Int.mul_emod_left n b
  rw [hdiv, hmod]
  rw [if_pos (by omega)]

/-- Nonpositive inputs round to a nonpositive slot. -/
theorem pyRoundDiv_nonpos (a b : Int) (ha : a ≤ 0) (hb : 0 < b) : pyRoundDiv a b ≤ 0 := by
  have hmod0 : 0 ≤ a % b := Int.emod_nonneg a (by omega)
  have hmodlt : a % b < b := Int.emod_lt_of_pos a hb
  have hdecomp : b * (a / b) + a % b = a := Int.ediv_add_emod a b
  have hfle : a / b ≤ 0 := by
    have := Int.ediv_le_ediv hb ha
    simpa using this
  unfold pyRoundDiv
  by_cases h1 : 2 * (a % b) < b
  · rw [if_pos h1]
    exact hfle
  · rw [if_neg h1]
    have hmodpos : 0 < a % b := by omega
    have hfneg : a / b < 0 := by nlinarith
    by_cases h2 : b < 2 * (a % b)
    · rw [if_pos h2]
      omega
    · rw [if_neg h2]
      by_cases h3 : a / b % 2 = 0
      · rw [if_pos h3]
        exact hfle
      · rw [if_neg h3]
        omega

/-- Inputs at or past the slot `n * b` round to at least slot `n`. -/
theorem pyRoundDiv_ge_of_ge (a b n : Int) (hb : 0 < b) (h : n * b ≤ a) :
    n ≤ pyRoundDiv a b := by
  have hf : n ≤ a / b := (Int.le_ediv_iff_mul_le hb).mpr h
  exact le_trans hf (pyRoundDiv_ge_ediv a b)

/-- C9: with at least one marker, the computed slot index is clamped to
`[0, numberOfFields - 1]`; a drop at or beyond the last slot's position
produces exactly the order of a drop on the last slot, and a drop at or
before position zero produces exactly the order of a drop on slot
zero. -/
theorem reorder_label_clamped (labels : List Str) (label : Str) (drop_x : Int)
    (h1 : 1 ≤ labels.length) :
    (0 ≤ max 0 (min (pyRoundDiv drop_x ((CELL_WIDTH : Int) * 2)) ((labels.length : Int) - 1)) ∧
      max 0 (min (pyRoundDiv drop_x ((CELL_WIDTH : Int) * 2)) ((labels.length : Int) - 1))
        ≤ (labels.length : Int) - 1) ∧
    (((labels.length : Int) - 1) * ((CELL_WIDTH : Int) * 2) ≤ drop_x →
      reorder_label labels label drop_x
        = reorder_label labels label (((labels.length : Int) - 1) * ((CELL_WIDTH : Int) * 2))) ∧
    (drop_x ≤ 0 → reorder_label labels label drop_x = reorder_label labels label 0) := by
  have hb : (0 : Int) < (CELL_WIDTH : Int) * 2 := by unfold CELL_WIDTH; omega
  have hn1 : (0 : Int) ≤ (labels.length : Int) - 1 := by
    have : (1 : Int) ≤ (labels.length : Int) := by exact_mod_cast h1
    omega
  refine ⟨⟨le_max_left 0 _, ?_⟩, ?_, ?_⟩
  · rcases le_total (pyRoundDiv drop_x ((CELL_WIDTH : Int) * 2)) ((labels.length : Int) - 1)
      with h | h
    · rw [min_eq_left h]
      omega
    · rw [min_eq_right h]
      omega
  · intro hbeyond
    have hge : (labels.length : Int) - 1 ≤ pyRoundDiv drop_x ((CELL_WIDTH : Int) * 2) :=
      pyRoundDiv_ge_of_ge drop_x _ _ hb hbeyond
    have hslot : pyRoundDiv (((labels.length : Int) - 1) * ((CELL_WIDTH : Int) * 2))
        ((CELL_WIDTH : Int) * 2) = (labels.length : Int) - 1 :=
      pyRoundDiv_mul_self _ _ hb
    simp only [reorder_label]
    rw [hslot, min_eq_right hge, min_self]
  · intro hneg
    have hle0 : pyRoundDiv drop_x ((CELL_WIDTH : Int) * 2) ≤ 0 :=
      pyRoundDiv_nonpos drop_x _ hneg hb
    have hzero : pyRoundDiv 0 ((CELL_WIDTH : Int) * 2) = 0 := by
      have := pyRoundDiv_mul_self 0 ((CELL_WIDTH : Int) * 2) hb
      simpa using this
    simp only [reorder_label]
    rw [hzero]
    have hmin1 : min (pyRoundDiv drop_x ((CELL_WIDTH : Int) * 2)) ((labels.length : Int) - 1)
        ≤ 0 := le_trans (min_le_left _ _) hle0
    have hmax1 : max 0 (min (pyRoundDiv drop_x ((CELL_WIDTH : Int) * 2))
        ((labels.length : Int) - 1)) = 0 := by omega
    have hmax2 : max 0 (min 0 ((labels.length : Int) - 1)) = 0 := by omega
    rw [hmax1, hmax2]

/-- C9 witness: three markers, one dropped far beyond the last slot and
one dropped at a negative position. -/
theorem reorder_label_clamped_witness :
    (0 ≤ max 0 (min (pyRoundDiv 10000 ((CELL_WIDTH : Int) * 2))
        ((([(("A").toList), (("B").toList), (("C").toList)] : List Str).length : Int) - 1)) ∧
      max 0 (min (pyRoundDiv 10000 ((CELL_WIDTH : Int) * 2))
        ((([(("A").toList), (("B").toList), (("C").toList)] : List Str).length : Int) - 1))
        ≤ (([(("A").toList), (("B").toList), (("C").toList)] : List Str).length : Int) - 1) ∧
    reorder_label [(("A").toList), (("B").toList), (("C").toList)] (("A").toList) 10000
      = reorder_label [(("A").toList), (("B").toList), (("C").toList)] (("A").toList)
          (((([(("A").toList), (("B").toList), (("C").toList)] : List Str).length : Int) - 1)
            * ((CELL_WIDTH : Int) * 2)) ∧
    reorder_label [(("A").toList), (("B").toList), (("C").toList)] (("A").toList) (-50)
      = reorder_label [(("A").toList), (("B").toList), (("C").toList)] (("A").toList) 0 := by
  have h := reorder_label_clamped [(("A").toList), (("B").toList), (("C").toList)]
    (("A").toList) 10000 (by decide)
  have h2 := reorder_label_clamped [(("A").toList), (("B").toList), (("C").toList)]
    (("A").toList) (-50) (by decide)
  exact ⟨h.1, h.2.1 (by decide), h2.2.2 (by decide)⟩

/-! ### C5: the build/generate round trip -/

/-- The segment view of the template body that `build_filename`
assembles: each label is an intact field segment, each entry a literal
segment, in the interleaved order. -/
def segsOf : List Str → List Str → List Seg
  | [], _ => []
  | l :: ls, [] => .fld l :: segsOf ls []
  | l :: ls, e :: es => .fld l :: .lit e :: segsOf ls es

/-- The segment view assembles to exactly the built body. -/
theorem assemble_segsOf : ∀ (labels entries : List Str),
    assemble (segsOf labels entries) = interleave labels entries := by
  intro labels
  induction labels with
  | nil => intro entries; rfl
  | cons l ls ih =>
    intro entries
    cases entries with
    | nil =>
      simp only [segsOf, interleave, assemble, List.flatMap_cons, segText]
      rw [show (segsOf ls []).flatMap segText = assemble (segsOf ls []) from rfl, ih []]
    | cons e es =>
      simp only [segsOf, interleave, assemble, List.flatMap_cons, segText]
      rw [show (segsOf ls es).flatMap segText = assemble (segsOf ls es) from rfl, ih es]
      simp [List.append_assoc]

/-- Every character of the built body comes from a label or an entry. -/
theorem mem_interleave : ∀ (labels entries : List Str) (ch : Char),
    ch ∈ interleave labels entries →
    (∃ l ∈ labels, ch ∈ l) ∨ (∃ e ∈ entries, ch ∈ e) := by
  intro labels
  induction labels with
  | nil => intro entries ch h; exact absurd h (by simp [interleave])
  | cons l ls ih =>
    intro entries ch h
    cases entries with
    | nil =>
      rw [interleave] at h
      rcases List.mem_append.mp h with h | h
      · exact Or.inl ⟨l, by simp, h⟩
      · rcases ih [] ch h with ⟨l', hl', hch⟩ | ⟨e', he', _⟩
        · exact Or.inl ⟨l', by simp [hl'], hch⟩
        · exact absurd he' (by simp)
    | cons e es =>
      rw [interleave] at h
      rcases List.mem_append.mp h with h | h
      · rcases List.mem_append.mp h with h | h
        · exact Or.inl ⟨l, by simp, h⟩
        · exact Or.inr ⟨e, by simp, h⟩
      · rcases ih es ch h with ⟨l', hl', hch⟩ | ⟨e', he', hch⟩
        · exact Or.inl ⟨l', by simp [hl'], hch⟩
        · exact Or.inr ⟨e', by simp [he'], hch⟩

/-- Every character of an assembled segment list lies in one segment. -/
theorem mem_assemble (segs : List Seg) (ch : Char) (h : ch ∈ assemble segs) :
    ∃ seg ∈ segs, ch ∈ segText seg := by
  unfold assemble at h
  exact List.mem_flatMap.mp h

/-- A nonempty body: the first label is nonempty. -/
theorem interleave_ne_nil (l : Str) (ls entries : List Str) (hl : l ≠ []) :
    interleave (l :: ls) entries ≠ [] := by
  cases entries with
  | nil =>
    rw [interleave]
    simp [hl]
  | cons e es =>
    rw [interleave]
    simp [hl]

/-- Literal segments of the built template are exactly entry texts. -/
theorem lit_mem_segsOf : ∀ (labels entries : List Str) (x : Str),
    Seg.lit x ∈ segsOf labels entries → x ∈ entries := by
  intro labels
  induction labels with
  | nil => intro entries x h; exact absurd h (by simp [segsOf])
  | cons l ls ih =>
    intro entries x h
    cases entries with
    | nil =>
      rw [segsOf] at h
      rcases List.mem_cons.mp h with h | h
      · exact absurd h (by simp)
      · exact ih [] x h
    | cons e es =>
      rw [segsOf] at h
      rcases List.mem_cons.mp h with h | h
      · exact absurd h (by simp)
      · rcases List.mem_cons.mp h with h | h
        · have : x = e := (Seg.lit.inj h)
          simp [this]
        · simp [ih es x h]

/-- Field segments of the built template are exactly the labels. -/
theorem fld_mem_segsOf : ∀ (labels entries : List Str) (f : Str),
    Seg.fld f ∈ segsOf labels entries → f ∈ labels := by
  intro labels
  induction labels with
  | nil => intro entries f h; exact absurd h (by simp [segsOf])
  | cons l ls ih =>
    intro entries f h
    cases entries with
    | nil =>
      rw [segsOf] at h
      rcases List.mem_cons.mp h with h | h
      · have : f = l := Seg.fld.inj h
        simp [this]
      · simp [ih [] f h]
    | cons e es =>
      rw [segsOf] at h
      rcases List.mem_cons.mp h with h | h
      · have : f = l := Seg.fld.inj h
        simp [this]
      · rcases List.mem_cons.mp h with h | h
        · exact absurd h (by simp)
        · simp [ih es f h]

/-- The generator's whole substitution pass over an assembled template:
under the character-separation hypotheses (nonempty field names with
pairwise-disjoint character sets; literal text and replacement values
sharing no character with any field name), the pass turns every intact
label whose field is processed into literal text and leaves a segment
list whose remaining labels are original labels with unprocessed fields.
`cols0` carries the hypotheses; `cols` is the suffix still to process. -/
theorem foldl_subst (cols0 : List Str) (val : Str → Str)
    (hc0 : ∀ c ∈ cols0, c ≠ [])
    (hdisj : ∀ c ∈ cols0, ∀ c' ∈ cols0, c ≠ c' → ∀ ch ∈ c, ch ∉ c')
    (hval : ∀ c' ∈ cols0, ∀ c ∈ cols0, ∀ ch ∈ val c', ch ∉ c) :
    ∀ (cols : List Str), cols ⊆ cols0 →
    ∀ (segs : List Seg),
      (∀ x, Seg.lit x ∈ segs → ∀ c ∈ cols0, ∀ ch ∈ x, ch ∉ c) →
      (∀ f, Seg.fld f ∈ segs → f ∈ cols0) →
      ∃ segs' : List Seg,
        cols.foldl (fun temp c => replaceL c (val c) temp) (assemble segs) = assemble segs' ∧
        (∀ x, Seg.lit x ∈ segs' → ∀ c ∈ cols0, ∀ ch ∈ x, ch ∉ c) ∧
        (∀ f, Seg.fld f ∈ segs' → Seg.fld f ∈ segs ∧ f ∉ cols) := by
  intro cols
  induction cols with
  | nil =>
    intro _ segs hlit hfld
    exact ⟨segs, rfl, hlit, fun f hf => ⟨hf, by simp⟩⟩
  | cons c cs ih =>
    intro hsub segs hlit hfld
    have hc : c ∈ cols0 := hsub (by simp)
    have hcs : cs ⊆ cols0 := fun x hx => hsub (by simp [hx])
    have hcne : c ≠ [] := hc0 c hc
    have hstep : replaceL c (val c) (assemble segs)
        = assemble (segs.map (substSeg c (val c))) := by
      unfold replaceL
      rw [if_neg hcne]
      exact replaceNE_assemble c (val c) hcne segs
        (fun x hx => hlit x hx c hc)
        (fun f hf hfc ch hch => hdisj f (hfld f hf) c hc hfc ch hch)
    have hlit1 : ∀ x, Seg.lit x ∈ segs.map (substSeg c (val c)) →
        ∀ c' ∈ cols0, ∀ ch ∈ x, ch ∉ c' := by
      intro x hx c' hc' ch hch
      rcases List.mem_map.mp hx with ⟨seg, hseg, hmap⟩
      cases seg with
      | lit y =>
        have : x = y := by
          rw [substSeg] at hmap
          exact (Seg.lit.inj hmap).symm
        rw [this] at hch
        exact hlit y hseg c' hc' ch hch
      | fld f =>
        rw [substSeg] at hmap
        by_cases hfc : f = c
        · rw [if_pos hfc] at hmap
          have : x = val c := (Seg.lit.inj hmap).symm
          rw [this] at hch
          exact hval c hc c' hc' ch hch
        · rw [if_neg hfc] at hmap
          exact absurd hmap (by simp)
    have hfld1 : ∀ f, Seg.fld f ∈ segs.map (substSeg c (val c)) → f ∈ cols0 := by
      intro f hf
      rcases List.mem_map.mp hf with ⟨seg, hseg, hmap⟩
      cases seg with
      | lit y => rw [substSeg] at hmap; exact absurd hmap (by simp)
      | fld g =>
        rw [substSeg] at hmap
        by_cases hgc : g = c
        · rw [if_pos hgc] at hmap
          exact absurd hmap (by simp)
        · rw [if_neg hgc] at hmap
          have : g = f := Seg.fld.inj hmap
          rw [← this]
          exact hfld g hseg
    rcases ih hcs (segs.map (substSeg c (val c))) hlit1 hfld1 with
      ⟨segs', heq, hlit', hfld'⟩
    refine ⟨segs', ?_, hlit', ?_⟩
    · rw [List.foldl_cons, hstep]
      exact heq
    · intro f hf
      rcases hfld' f hf with ⟨hmem, hnot⟩
      rcases List.mem_map.mp hmem with ⟨seg, hseg, hmap⟩
      cases seg with
      | lit y => rw [substSeg] at hmap; exact absurd hmap (by simp)
      | fld g =>
        rw [substSeg] at hmap
        by_cases hgc : g = c
        · rw [if_pos hgc] at hmap
          exact absurd hmap (by simp)
        · rw [if_neg hgc] at hmap
          have hgf : g = f := Seg.fld.inj hmap
          subst hgf
          refine ⟨hseg, ?_⟩
          intro hmemc
          rcases List.mem_cons.mp hmemc with h | h
          · exact hgc h
          · exact hnot h

/-- C5 counterexample: one selected field `A`, no separators, extension
`.pdf`, and a row whose value for `A` is the string `"A"`.  The round
trip yields one name per row, but that name is `"A"`, which does contain
the selected field's name — the claimed freedom from residual field-name
occurrences fails. -/
theorem round_trip_residual_occurrence :
    generate_formatted_names
        ⟨[(("A").toList)], [[((("A").toList), .s (("A").toList))]]⟩
        [(("A").toList)]
        (build_filename [(("A").toList)] [] ((".pdf").toList))
      = some [(("A").toList)] ∧
    ((("A").toList) <:+: (("A").toList)) := by
  exact ⟨by decide, by decide⟩

/-- C5 (amended): build then generate yields exactly one name per row;
and whenever the selected field names are nonempty with pairwise-disjoint
character sets and no separator entry or substituted value shares a
character with any field name (with names, entries and the extension tail
free of dots and slashes so the extension split is clean), no generated
name contains any occurrence of any selected field's name. -/
theorem build_generate_round_trip (labels entries : List Str) (ext_tail : Str)
    (df : DataFrame) (cols : List Str)
    (hlabne : labels ≠ [])
    (hlabels : ∀ l ∈ labels, l ∈ cols)
    (hc0 : ∀ c ∈ cols, c ≠ [])
    (hcolchar : ∀ c ∈ cols, ∀ ch ∈ c, ch ≠ '.' ∧ ch ≠ '/')
    (hdisj : ∀ c ∈ cols, ∀ c' ∈ cols, c ≠ c' → ∀ ch ∈ c, ch ∉ c')
    (hentry : ∀ e ∈ entries, ∀ c ∈ cols, ∀ ch ∈ e, ch ∉ c)
    (hentrychar : ∀ e ∈ entries, ∀ ch ∈ e, ch ≠ '.' ∧ ch ≠ '/')
    (hexttail : ∀ ch ∈ ext_tail, ch ≠ '.' ∧ ch ≠ '/')
    (hpresent : ∀ row ∈ df.rows, ∀ c ∈ cols, (List.lookup c row).isSome = true)
    (hval : ∀ row ∈ df.rows, ∀ c' ∈ cols, ∀ c ∈ cols,
      ∀ ch ∈ formatCell ((List.lookup c' row).getD (.s [])), ch ∉ c) :
    ∃ names,
      generate_formatted_names df cols (build_filename labels entries ('.' :: ext_tail))
        = some names ∧
      names.length = df.rows.length ∧
      ∀ nm ∈ names, ∀ c ∈ cols, ¬ (c <:+: nm) := by
  have hbody : ∀ ch ∈ interleave labels entries, ch ≠ '.' ∧ ch ≠ '/' := by
    intro ch hch
    rcases mem_interleave labels entries ch hch with ⟨l, hl, hc⟩ | ⟨e, he, hc⟩
    · exact hcolchar l (hlabels l hl) ch hc
    · exact hentrychar e he ch hc
  have hbodyne : interleave labels entries ≠ [] := by
    rcases labels with _ | ⟨l, ls⟩
    · exact absurd rfl hlabne
    · exact interleave_ne_nil l ls entries (hc0 l (hlabels l (by simp)))
  have hbuild : build_filename labels entries ('.' :: ext_tail)
      = interleave labels entries ++ '.' :: ext_tail := by
    unfold build_filename normExt
    rfl
  have hsplit : splitext (build_filename labels entries ('.' :: ext_tail))
      = (interleave labels entries, '.' :: ext_tail) := by
    rw [hbuild]
    exact splitext_body_ext (interleave labels entries) ext_tail hbodyne hbody hexttail
  have hgen : generate_formatted_names df cols (build_filename labels entries ('.' :: ext_tail))
      = some (df.rows.map (fun row =>
          cols.foldl (fun temp col =>
            replaceL col (formatCell ((List.lookup col row).getD (.s []))) temp)
            (splitext (build_filename labels entries ('.' :: ext_tail))).1)) := by
    unfold generate_formatted_names
    exact mapM_eq_map_of_some _ _ df.rows
      (fun row hrow => foldlM_subst_eq row cols (hpresent row hrow) _)
  refine ⟨_, hgen, by rw [List.length_map], ?_⟩
  intro nm hnm c hc
  rcases List.mem_map.mp hnm with ⟨row, hrow, hmap⟩
  have hbase : (splitext (build_filename labels entries ('.' :: ext_tail))).1
      = assemble (segsOf labels entries) := by
    rw [hsplit, assemble_segsOf]
  rcases foldl_subst cols
      (fun col => formatCell ((List.lookup col row).getD (.s [])))
      hc0 hdisj (hval row hrow) cols (fun x hx => hx) (segsOf labels entries)
      (fun x hx c' hc' ch hch =>
        hentry x (lit_mem_segsOf labels entries x hx) c' hc' ch hch)
      (fun f hf => hlabels f (fld_mem_segsOf labels entries f hf)) with
    ⟨segs', heq, hlit', hfld'⟩
  have hnm' : nm = assemble segs' := by
    rw [← hmap, hbase, heq]
  have hclean : ∀ ch ∈ nm, ch ∉ c := by
    intro ch hch
    rw [hnm'] at hch
    rcases mem_assemble segs' ch hch with ⟨seg, hseg, hchseg⟩
    cases seg with
    | lit x => exact hlit' x hseg c hc ch hchseg
    | fld f =>
      exfalso
      rcases hfld' f hseg with ⟨hmem, hnot⟩
      exact hnot (hlabels f (fld_mem_segsOf labels entries f hmem))
  exact not_infix_of_clean c nm (hc0 c hc) hclean

/-- C5 witness: one field `Name` with digit-only values, no separators,
extension `.pdf`. -/
theorem build_generate_round_trip_witness :
    ∃ names,
      generate_formatted_names
          ⟨[(("Name").toList)], [[((("Name").toList), .s (("2020").toList))]]⟩
          [(("Name").toList)]
          (build_filename [(("Name").toList)] [] ('.' :: (("pdf").toList)))
        = some names ∧
      names.length = (⟨[(("Name").toList)],
          [[((("Name").toList), .s (("2020").toList))]]⟩ : DataFrame).rows.length ∧
      ∀ nm ∈ names, ∀ c ∈ [(("Name").toList)], ¬ (c <:+: nm) :=
  build_generate_round_trip [(("Name").toList)] [] (("pdf").toList)
    ⟨[(("Name").toList)], [[((("Name").toList), .s (("2020").toList))]]⟩
    [(("Name").toList)]
    (by decide) (by decide) (by decide) (by decide) (by decide) (by decide)
    (by decide) (by decide) (by decide) (by decide)

end BatchRenamer
